import Mathlib

/-!
# Verification development for `main.js` (hexagram-seeded lotto number generator)

The generation pipeline of `main.js` is embedded as pure Lean functions:

* a digest is a `List Nat` (a `Uint8Array`; reading past the end yields JavaScript
  `undefined`, which every bitwise operator used here coerces to `0`, hence `getD _ 0`);
* `while` loops with a retry guard are recursions on the remaining guard budget;
* `Array.prototype.sort((a,b)=>a-b)` is an ascending sort of the list.
-/

namespace Lotto

/-! ## Number selection (`pickUniqueNumbers`, main.js 83-98) -/

/-- Lines 89-92 of `pickUniqueNumbers`: the number drawn when the cursor is `p`,
`((hi << 8) | lo) % 45 + 1` with `hi = bytes[p % bytes.length]` and
`lo = bytes[(p+1) % bytes.length]`. -/
def drawAt (bytes : List Nat) (p : Nat) : Nat :=
  let hi := bytes.getD (p % bytes.length) 0
  let lo := bytes.getD ((p + 1) % bytes.length) 0
  ((hi <<< 8) ||| lo) % 45 + 1

/-- The `while (out.length < count && guard < 4000)` loop of `pickUniqueNumbers`;
`fuel` is `4000 - guard`, `p` the cursor and `out` the numbers accepted so far. -/
def pickLoop (bytes : List Nat) (count : Nat) : Nat → Nat → List Nat → List Nat
  | 0, _, out => out
  | fuel + 1, p, out =>
    if out.length < count then
      let v := drawAt bytes p
      pickLoop bytes count fuel (p + 2) (if v ∈ out then out else out ++ [v])
    else out

/-- The call `out.sort((a,b)=>a-b)`: ascending numeric sort. -/
def sortAsc (out : List Nat) : List Nat :=
  out.insertionSort (· ≤ ·)

/-- The function `pickUniqueNumbers(bytes, count, offset)` of main.js. -/
def pickUniqueNumbers (bytes : List Nat) (count offset : Nat) : List Nat :=
  sortAsc (pickLoop bytes count 4000 offset [])

/-- The expression `pickUniqueNumbers(bytes, 1, offset)[0]` (main.js 205, 336, 340):
the first element of the returned array, `none` standing for `undefined`. -/
def firstPick (bytes : List Nat) (offset : Nat) : Option Nat :=
  (pickUniqueNumbers bytes 1 offset).head?

/-! ## Attributes (`numberElement`, `GENERATES`, `OVERCOMES`, main.js 14-27) -/

/-- The five element strings of main.js:
`"목(木)"`, `"화(火)"`, `"토(土)"`, `"금(金)"`, `"수(水)"`. -/
inductive Element where
  | wood
  | fire
  | earth
  | metal
  | water
  deriving DecidableEq, Repr

/-- The function `numberElement(n)`; `%` is the truncating remainder of JavaScript. -/
def numberElement (n : Int) : Element :=
  let r := Int.tmod n 5
  if r = 1 then Element.wood
  else if r = 2 then Element.fire
  else if r = 3 then Element.earth
  else if r = 4 then Element.metal
  else Element.water

/-- The table `GENERATES`. -/
def GENERATES : Element → Element
  | Element.wood => Element.fire
  | Element.fire => Element.earth
  | Element.earth => Element.metal
  | Element.metal => Element.water
  | Element.water => Element.wood

/-- The table `OVERCOMES`. -/
def OVERCOMES : Element → Element
  | Element.wood => Element.earth
  | Element.earth => Element.water
  | Element.water => Element.fire
  | Element.fire => Element.metal
  | Element.metal => Element.wood

/-! ## Trigrams (`TRIGRAMS`, `trigramFromLines`, `dominantElement`, main.js 1-12, 68-80) -/

/-- One entry of the `TRIGRAMS` table. -/
structure Trigram where
  key : String
  name : String
  symbol : String
  nature : String
  element : Element
  deriving DecidableEq, Repr

/-- The table `TRIGRAMS`, keyed by the three bits written bottom to top;
`none` is the `undefined` of a missing key. -/
def TRIGRAMS (key : String) : Option Trigram :=
  if key = "111" then some ⟨"qian", "건(乾)", "☰", "하늘", Element.metal⟩
  else if key = "110" then some ⟨"dui", "태(兌)", "☱", "택(못/호수)", Element.metal⟩
  else if key = "101" then some ⟨"li", "리(離)", "☲", "불", Element.fire⟩
  else if key = "100" then some ⟨"zhen", "진(震)", "☳", "천둥", Element.wood⟩
  else if key = "011" then some ⟨"xun", "손(巽)", "☴", "바람", Element.wood⟩
  else if key = "010" then some ⟨"kan", "감(坎)", "☵", "물", Element.water⟩
  else if key = "001" then some ⟨"gen", "간(艮)", "☶", "산", Element.earth⟩
  else if key = "000" then some ⟨"kun", "곤(坤)", "☷", "땅", Element.earth⟩
  else none

/-- String conversion of an array element inside a template literal: a number prints
in decimal, a missing element prints as `undefined`. -/
def jsStr : Option Nat → String
  | some n => toString n
  | none => "undefined"

/-- The function `trigramFromLines(bottom3)`; `none` is its `null`. -/
def trigramFromLines (bottom3 : List Nat) : Option Trigram :=
  let key := jsStr bottom3[0]? ++ jsStr bottom3[1]? ++ jsStr bottom3[2]?
  TRIGRAMS key

/-- The conversion `flag ? 1 : 0` of a changing flag (a missing flag is falsy). -/
def flagBit (moving : List Bool) (i : Nat) : Nat :=
  if moving.getD i false then 1 else 0

/-- The function `dominantElement(upper, lower, moving)`. -/
def dominantElement (upper lower : Trigram) (moving : List Bool) : Element :=
  let upperMoving := flagBit moving 3 + flagBit moving 4 + flagBit moving 5
  let lowerMoving := flagBit moving 0 + flagBit moving 1 + flagBit moving 2
  if upper.element = lower.element then upper.element
  else if upperMoving ≥ lowerMoving then upper.element else lower.element

/-! ## Figure derivation (`deriveLines`, main.js 53-66) -/

/-- The object `{ lines, moving, changed }` returned by `deriveLines`. -/
structure Figure where
  lines : List Nat
  moving : List Bool
  changed : List Nat
  deriving DecidableEq, Repr

/-- The value pushed to `lines` for index `i`: `(b & 1) === 1 ? 1 : 0`. -/
def lineAt (bytes : List Nat) (i : Nat) : Nat :=
  if (bytes.getD i 0) &&& 1 = 1 then 1 else 0

/-- The value pushed to `moving` for index `i`: `((b >> 1) & 1) === 1`. -/
def movingAt (bytes : List Nat) (i : Nat) : Bool :=
  decide (((bytes.getD i 0) >>> 1) &&& 1 = 1)

/-- The function `deriveLines(bytes)`: six pushes, then
`changed = lines.map((v, idx) => moving[idx] ? (v ? 0 : 1) : v)`. -/
def deriveLines (bytes : List Nat) : Figure :=
  let lines := (List.range 6).map (lineAt bytes)
  let moving := (List.range 6).map (movingAt bytes)
  let changed := lines.enum.map fun iv =>
    if moving.getD iv.1 false then (if iv.2 ≠ 0 then 0 else 1) else iv.2
  { lines := lines, moving := moving, changed := changed }

/-! ## Alternatives (`buildAlternatives`, main.js 186-211) -/

/-- The `for (const c of candidates)` loop of `buildAlternatives` (lines 193-197),
started with the collected numbers `out`. -/
def altInner (baseNum : Int) (baseEl : Element) (maxCount : Nat) :
    List Nat → List Nat → List Nat
  | [], out => out
  | c :: cs, out =>
    if (c : Int) = baseNum then altInner baseNum baseEl maxCount cs out
    else
      let out1 := if numberElement c = baseEl ∧ c ∉ out then out ++ [c] else out
      if out1.length ≥ maxCount then out1
      else altInner baseNum baseEl maxCount cs out1

/-- The first `while` loop of `buildAlternatives` (lines 191-200); `fuel` is `200 - tries`. -/
def altBatches (bytes : List Nat) (baseNum : Int) (baseEl : Element) (maxCount : Nat) :
    Nat → Nat → List Nat → List Nat
  | 0, _, out => out
  | fuel + 1, offset, out =>
    if out.length < maxCount then
      altBatches bytes baseNum baseEl maxCount fuel (offset + 7)
        (altInner baseNum baseEl maxCount (pickUniqueNumbers bytes 10 offset) out)
    else out

/-- The fallback `while` loop of `buildAlternatives` (lines 204-209); `fuel` is
`100 - tries`. A draw of one number is never empty (`pickUniqueNumbers_one`), so the
`undefined` branch is dead; it is modelled as leaving `out` unchanged. -/
def altFallback (bytes : List Nat) (baseNum : Int) (maxCount : Nat) :
    Nat → Nat → List Nat → List Nat
  | 0, _, out => out
  | fuel + 1, offset, out =>
    if out.length < maxCount then
      altFallback bytes baseNum maxCount fuel (offset + 1)
        (match firstPick bytes offset with
          | some c => if (c : Int) ≠ baseNum ∧ c ∉ out then out ++ [c] else out
          | none => out)
    else out

/-- The function `buildAlternatives(bytes, baseNum, maxCount)`. -/
def buildAlternatives (bytes : List Nat) (baseNum : Int) (maxCount : Nat) : List Nat :=
  altFallback bytes baseNum maxCount 100 999
    (altBatches bytes baseNum (numberElement baseNum) maxCount 200 13 [])

/-! ## Groups and bonus numbers (`generate`, main.js 324-344) -/

/-- The count `moving.reduce((s,v)=>s + (v?1:0), 0)` of line 325. -/
def moveCount (moving : List Bool) : Nat :=
  moving.foldl (fun s v => s + (if v then 1 else 0)) 0

/-- The array `allSets` of `generate` (lines 324-330). -/
def allSets (bytes : List Nat) : List (List Nat) :=
  (List.range 5).map fun setIdx =>
    pickUniqueNumbers bytes 5 (setIdx * 7 + moveCount (deriveLines bytes).moving)

/-- The test `set.includes(b)`; `undefined` is in no array of numbers. -/
def includesJs (set : List Nat) : Option Nat → Bool
  | some b => decide (b ∈ set)
  | none => false

/-- The re-draw loop of lines 338-342; `fuel` is `200 - guard`. -/
def bonusLoop (bytes : List Nat) (set : List Nat) : Nat → Nat → Option Nat → Option Nat
  | 0, _, b => b
  | fuel + 1, offsetB, b =>
    if includesJs set b then
      bonusLoop bytes set fuel (offsetB + 1) (firstPick bytes (offsetB + 1))
    else b

/-- The bonus pushed for group `setIdx` (lines 335-343). -/
def bonus (bytes : List Nat) (setIdx : Nat) : Option Nat :=
  let offsetB := 200 + setIdx * 3 + bytes.getD ((setIdx + 10) % bytes.length) 0
  bonusLoop bytes ((allSets bytes).getD setIdx []) 200 offsetB (firstPick bytes offsetB)

/-! ## Fallback digest (`sha256Bytes`, main.js 36-48) and the seed of `generate` -/

/-- The expression `Math.imul(a, b) >>> 0`: the product reduced to an unsigned 32-bit value. -/
def imul32 (a b : Nat) : Nat :=
  (a * b) % 4294967296

/-- The first loop of the fallback path (lines 39-42) started with the hash value `h`;
`str` is the list of the UTF-16 code units `str.charCodeAt(i)`. -/
def fnvLoop (str : List Nat) (h : Nat) : Nat :=
  str.foldl (fun h c => imul32 (h ^^^ c) 0x01000193) h

/-- One round of the second loop (lines 44-46): the state is the hash value `h` and the
array `bytes`. -/
def fallbackStep (st : Nat × List Nat) (i : Nat) : Nat × List Nat :=
  let h1 := st.1 ^^^ ((i + 0x9e3779b9) % 4294967296)
  let h2 := imul32 h1 0x01000193
  (h2, st.2.set i ((h2 >>> ((i % 4) * 8)) &&& 0xff))

/-- The fallback path of `sha256Bytes(str)` (lines 37-48): `bytes = new Uint8Array(32)`,
`h = 0x811c9dc5`, the two loops, `return bytes`. -/
def sha256BytesFallback (str : List Nat) : List Nat :=
  ((List.range 32).foldl fallbackStep (fnvLoop str 0x811c9dc5, List.replicate 32 0)).2

/-- The code units of the decimal string of a counter value (`String(nonce)`). -/
def decimalCodes (nonce : Nat) : List Nat :=
  (Nat.repr nonce).toList.map Char.toNat

/-- The argument `seed + '|' + nonce` of line 315, as code units (`'|'` is 124). -/
def seedWithNonce (seed : List Nat) (nonce : Nat) : List Nat :=
  seed ++ [124] ++ decimalCodes nonce

/-! ## Explanation records (`buildReasons`, main.js 213-276) -/

/-- The four relation labels of `buildReasons`: `"핵심 에너지"` (self), `"상생(지원)"`
(generative), `"상극(제약)"` (restraining) and `"별개의 성질"` (neutral). -/
inductive Relation where
  | self
  | generative
  | restraining
  | neutral
  deriving DecidableEq, Repr

/-- The argument `ctx` of `buildReasons`; a trigram may be `null`. -/
structure ReasonCtx where
  upper : Option Trigram
  lower : Option Trigram
  domEl : Element
  moving : List Bool
  lines : List Nat

/-- Array indexing `arr[i]` with an integer index: `none` (`undefined`) outside the array. -/
def jsIndex {α : Type} (arr : List α) (i : Int) : Option α :=
  if i < 0 then none else arr[i.toNat]?

/-- The expression `(n % 6) === 0 ? 6 : (n % 6)` of line 220. -/
def linePosOf (n : Int) : Int :=
  if Int.tmod n 6 = 0 then 6 else Int.tmod n 6

/-- The chain `if (el === domEl) .. else if (el === gen) .. else if (el === over) ..` of
lines 230-241 (and again 249-253), as the relation it selects. -/
def relationOf (el domEl : Element) : Relation :=
  let gen := GENERATES domEl
  let over := OVERCOMES domEl
  if el = domEl then Relation.self
  else if el = gen then Relation.generative
  else if el = over then Relation.restraining
  else Relation.neutral

/-- The values computed by `buildReasons` for one number and interpolated in its HTML
string: `el`, `linePos`, `isMoving`, `lines[linePos-1] === 1`, `trigram`, and the relation
chosen for `relationLabel`/`relationText` and for `reasonShort`. -/
structure Reason where
  n : Int
  el : Element
  linePos : Int
  isMoving : Bool
  isYang : Bool
  trigram : Option Trigram
  relation : Relation
  reasonShort : Relation

/-- The body of the `mainNums.map` callback of `buildReasons` (lines 219-253). -/
def buildReason (ctx : ReasonCtx) (n : Int) : Reason :=
  let el := numberElement n
  let linePos := linePosOf n
  let isMoving := (jsIndex ctx.moving (linePos - 1)).getD false
  let isYang := decide (jsIndex ctx.lines (linePos - 1) = some 1)
  let trigram := if linePos ≤ 3 then ctx.lower else ctx.upper
  { n := n, el := el, linePos := linePos, isMoving := isMoving, isYang := isYang,
    trigram := trigram, relation := relationOf el ctx.domEl,
    reasonShort := relationOf el ctx.domEl }

/-- The function `buildReasons(mainNums, ctx)`. -/
def buildReasons (mainNums : List Int) (ctx : ReasonCtx) : List Reason :=
  mainNums.map (buildReason ctx)

/-! ## Specification-side notions and concrete digests -/

/-- The draws the loop of `pickUniqueNumbers` can make with `fuel` iterations left and the
cursor at `p`: the values at the cursors `p, p+2, p+4, ...`. -/
def drawsFrom (bytes : List Nat) (fuel p : Nat) : List Nat :=
  (List.range fuel).map fun i => drawAt bytes (p + 2 * i)

/-- The number of changing flags among the positions `lo, ..., hi-1` of `moving`. -/
def changingIn (moving : List Bool) (lo hi : Nat) : Nat :=
  ((moving.take hi).drop lo).count true

/-- The numbers collected by `buildAlternatives` once the first `t` batches have been
processed (the state of `out` after `t` rounds of the first loop). -/
def batchState (bytes : List Nat) (baseNum : Int) (maxCount t : Nat) : List Nat :=
  altBatches bytes baseNum (numberElement baseNum) maxCount t 13 []

/-- The invariant of `out` in `buildAlternatives`: no duplicate and no `baseNum`. -/
def AltOk (baseNum : Int) (out : List Nat) : Prop :=
  out.Nodup ∧ ∀ x ∈ out, (x : Int) ≠ baseNum

/-- The all-zero digest. -/
def digestZero : List Nat := List.replicate 32 0

/-- A digest whose bytes are all multiples of 9. -/
def digestNines : List Nat :=
  [9, 18, 27, 36, 45, 54, 63, 72, 81, 90, 99, 108, 117, 126, 135, 144, 153, 162, 171, 180,
   189, 198, 207, 216, 225, 234, 243, 252, 0, 9, 27, 45]

/-- A digest with no special structure (`(7 i^2 + 13 i + 5) mod 256` at index `i`). -/
def digestMixed : List Nat :=
  [5, 25, 59, 107, 169, 245, 79, 183, 45, 177, 67, 227, 145, 77, 23, 239, 213, 201, 203,
   219, 249, 37, 95, 167, 253, 97, 211, 83, 225, 125, 39, 223]

/-- The remainder table of the attribute mapping, as the specification words it:
remainder 1 is wood, 2 is fire, 3 is earth, 4 is metal, 0 is water. -/
def remainderTable : Int → Option Element
  | 1 => some Element.wood
  | 2 => some Element.fire
  | 3 => some Element.earth
  | 4 => some Element.metal
  | 0 => some Element.water
  | _ => none

/-- The 32-bit FNV-1a hash of a list of character codes, as the specification words it:
offset basis `0x811c9dc5`, prime `0x01000193`, arithmetic modulo 2^32. The argument is
the list of codes in reverse order (last character first). -/
def fnv1aRev : List Nat → Nat
  | [] => 0x811c9dc5
  | c :: earlier => ((fnv1aRev earlier ^^^ c) * 0x01000193) % 2 ^ 32

/-- The 32-bit FNV-1a hash of a string given by its character codes. -/
def fnv1a (str : List Nat) : Nat :=
  fnv1aRev str.reverse

/-- The sequence `h` of the specification started from `h(-1) = h0`, shifted by one:
`hRound h0 0 = h(-1)` and `hRound h0 (i+1) = h(i)
= ((h(i-1) xor (i + 0x9e3779b9)) * 0x01000193) mod 2^32`. -/
def hRound (h0 : Nat) : Nat → Nat
  | 0 => h0
  | i + 1 => ((hRound h0 i ^^^ (i + 0x9e3779b9)) * 0x01000193) % 2 ^ 32

/-- Byte `i` of the digest as the specification words it: byte number `i mod 4` of `h(i)`. -/
def digestByte (h0 i : Nat) : Nat :=
  (hRound h0 (i + 1) / 2 ^ (8 * (i % 4))) % 256

/-- The code units of the seed string `2024-01-01`. -/
def seed2024 : List Nat :=
  [50, 48, 50, 52, 45, 48, 49, 45, 48, 49]

/-- A digest whose figure has the lines 1, 0, 1, 1, 1, 1 and one changing line in each
half (positions 0 and 4): the first six bytes are 3, 0, 1, 1, 3, 1, the other bytes are
those of `digestMixed`. -/
def digestTie : List Nat :=
  [3, 0, 1, 1, 3, 1, 79, 183, 45, 177, 67, 227, 145, 77, 23, 239, 213, 201, 203,
   219, 249, 37, 95, 167, 253, 97, 211, 83, 225, 125, 39, 223]

/-- A context for `buildReasons`: upper trigram 111, lower trigram 101, dominant attribute
metal, changing lines at positions 0 and 4. -/
def ctxExample : ReasonCtx :=
  { upper := TRIGRAMS "111", lower := TRIGRAMS "101", domEl := Element.metal,
    moving := [true, false, false, false, true, false], lines := [1, 0, 1, 1, 1, 1] }

/-! ## Auxiliary lemmas -/

theorem drawAt_range (bytes : List Nat) (p : Nat) :
    1 ≤ drawAt bytes p ∧ drawAt bytes p ≤ 45 := by
  simp only [drawAt]
  omega

theorem pickLoop_of_length_ge (bytes : List Nat) (count fuel p : Nat) (out : List Nat)
    (h : count ≤ out.length) : pickLoop bytes count fuel p out = out := by
  cases fuel with
  | zero => rfl
  | succ n => simp [pickLoop]; omega

theorem pickLoop_inv (bytes : List Nat) (count : Nat) :
    ∀ (fuel p : Nat) (out : List Nat), out.Nodup → (∀ x ∈ out, 1 ≤ x ∧ x ≤ 45) →
      out.length ≤ count →
      (pickLoop bytes count fuel p out).Nodup ∧
      (∀ x ∈ pickLoop bytes count fuel p out, 1 ≤ x ∧ x ≤ 45) ∧
      (pickLoop bytes count fuel p out).length ≤ count := by
  intro fuel
  induction fuel with
  | zero => intro p out h1 h2 h3; exact ⟨h1, h2, h3⟩
  | succ n ih =>
    intro p out h1 h2 h3
    simp only [pickLoop]
    split
    · rename_i hlt
      apply ih
      · split
        · exact h1
        · rename_i hv
          exact List.Nodup.append h1 (List.nodup_singleton _) (by simpa using hv)
      · intro x hx
        split at hx
        · exact h2 x hx
        · rcases List.mem_append.1 hx with hx | hx
          · exact h2 x hx
          · rw [List.mem_singleton.1 hx]; exact drawAt_range bytes p
      · split
        · exact h3
        · simp; omega
    · exact ⟨h1, h2, h3⟩

theorem sortAsc_perm (l : List Nat) : (sortAsc l).Perm l :=
  List.perm_insertionSort _ l

theorem sortAsc_sorted (l : List Nat) : (sortAsc l).Sorted (· ≤ ·) :=
  List.sorted_insertionSort _ l

theorem drawsFrom_succ (bytes : List Nat) (fuel p : Nat) :
    drawsFrom bytes (fuel + 1) p = drawAt bytes p :: drawsFrom bytes fuel (p + 2) := by
  simp only [drawsFrom, List.range_succ_eq_map, List.map_cons, List.map_map]
  refine congrArg₂ _ rfl (List.map_congr_left fun i _ => ?_)
  simp only [Function.comp]
  congr 1
  omega

theorem pickLoop_length (bytes : List Nat) (count : Nat) :
    ∀ (fuel p : Nat) (out : List Nat), out.Nodup → out.length ≤ count →
      (pickLoop bytes count fuel p out).length =
        min count (out ++ drawsFrom bytes fuel p).toFinset.card := by
  intro fuel
  induction fuel with
  | zero =>
    intro p out h1 h2
    simp [pickLoop, drawsFrom, List.toFinset_card_of_nodup h1, h2]
  | succ n ih =>
    intro p out h1 h2
    simp only [pickLoop]
    have hc : out.length ≤ (out ++ drawsFrom bytes (n + 1) p).toFinset.card := by
      rw [← List.toFinset_card_of_nodup h1]
      apply Finset.card_le_card
      intro x hx
      simp only [List.mem_toFinset, List.mem_append] at hx ⊢
      exact Or.inl hx
    split
    · rename_i hlt
      by_cases hv : drawAt bytes p ∈ out
      · rw [if_pos hv, ih (p + 2) out h1 h2, drawsFrom_succ]
        congr 2
        ext x
        simp only [List.mem_toFinset, List.mem_append, List.mem_cons]
        constructor
        · rintro (h | h)
          · exact Or.inl h
          · exact Or.inr (Or.inr h)
        · rintro (h | h | h)
          · exact Or.inl h
          · exact Or.inl (h ▸ hv)
          · exact Or.inr h
      · rw [if_neg hv, ih (p + 2) _ (List.Nodup.append h1 (List.nodup_singleton _)
          (by simpa using hv)) (by simp; omega), drawsFrom_succ]
        congr 2
        ext x
        simp only [List.mem_toFinset, List.mem_append, List.mem_cons, List.mem_singleton]
        tauto
    · omega

theorem pickLoop_succ (bytes : List Nat) (count fuel p : Nat) (out : List Nat) :
    pickLoop bytes count (fuel + 1) p out =
      if out.length < count then
        pickLoop bytes count fuel (p + 2)
          (if drawAt bytes p ∈ out then out else out ++ [drawAt bytes p])
      else out := rfl

theorem pickLoop_4000 (bytes : List Nat) (count p : Nat) (out : List Nat) :
    pickLoop bytes count 4000 p out =
      if out.length < count then
        pickLoop bytes count 3999 (p + 2)
          (if drawAt bytes p ∈ out then out else out ++ [drawAt bytes p])
      else out := pickLoop_succ bytes count 3999 p out

theorem pickUniqueNumbers_one (bytes : List Nat) (offset : Nat) :
    pickUniqueNumbers bytes 1 offset = [drawAt bytes offset] := by
  simp only [pickUniqueNumbers, pickLoop_4000]
  simp [pickLoop_of_length_ge, sortAsc]

theorem firstPick_eq (bytes : List Nat) (offset : Nat) :
    firstPick bytes offset = some (drawAt bytes offset) := by
  simp [firstPick, pickUniqueNumbers_one]

theorem pickUniqueNumbers_nodup (bytes : List Nat) (count offset : Nat) :
    (pickUniqueNumbers bytes count offset).Nodup :=
  (sortAsc_perm _).nodup_iff.2
    (pickLoop_inv bytes count 4000 offset [] List.nodup_nil (by simp) (by simp)).1

theorem pickUniqueNumbers_range (bytes : List Nat) (count offset : Nat) :
    ∀ x ∈ pickUniqueNumbers bytes count offset, 1 ≤ x ∧ x ≤ 45 := fun x hx =>
  (pickLoop_inv bytes count 4000 offset [] List.nodup_nil (by simp) (by simp)).2.1 x
    ((sortAsc_perm _).mem_iff.1 hx)

theorem getD_digestZero (i : Nat) : digestZero.getD i 0 = 0 := by
  unfold digestZero
  rw [List.getD_eq_getElem?_getD, List.getElem?_replicate]
  split <;> rfl

theorem drawAt_digestZero (p : Nat) : drawAt digestZero p = 1 := by
  simp only [drawAt, getD_digestZero]
  rfl

theorem pickLoop_digestZero (fuel p : Nat) : pickLoop digestZero 2 fuel p [1] = [1] := by
  induction fuel generalizing p with
  | zero => rfl
  | succ n ih => simp [pickLoop, drawAt_digestZero, ih]

theorem range_six : List.range 6 = [0, 1, 2, 3, 4, 5] := by decide

theorem lineAt_le_one (bytes : List Nat) (i : Nat) : lineAt bytes i = 0 ∨ lineAt bytes i = 1 := by
  unfold lineAt
  split
  · exact Or.inr rfl
  · exact Or.inl rfl

theorem flip_eq (l : Nat) (m : Bool) (h : l = 0 ∨ l = 1) :
    (if m = true then if l = 0 then 1 else 0 else l) = if m = true then 1 - l else l := by
  rcases h with h | h <;> cases m <;> simp [h]

theorem flagBit_sums (moving : List Bool) (h6 : moving.length = 6) :
    flagBit moving 3 + flagBit moving 4 + flagBit moving 5 = changingIn moving 3 6 ∧
      flagBit moving 0 + flagBit moving 1 + flagBit moving 2 = changingIn moving 0 3 := by
  match moving, h6 with
  | [a, b, c, d, e, f], _ =>
    cases a <;> cases b <;> cases c <;> cases d <;> cases e <;> cases f <;> decide

theorem altInner_spec (baseNum : Int) (baseEl : Element) (maxCount : Nat) :
    ∀ (cs out : List Nat), AltOk baseNum out → out.length < maxCount →
      AltOk baseNum (altInner baseNum baseEl maxCount cs out) ∧
      (altInner baseNum baseEl maxCount cs out).length ≤ maxCount ∧
      ∃ added, altInner baseNum baseEl maxCount cs out = out ++ added ∧ added.Sublist cs := by
  intro cs
  induction cs with
  | nil =>
    intro out h1 h2
    exact ⟨h1, Nat.le_of_lt h2, [], by simp [altInner], List.Sublist.refl _⟩
  | cons c cs ih =>
    intro out h1 h2
    simp only [altInner]
    split
    · obtain ⟨a, b, added, hadd, hsub⟩ := ih out h1 h2
      exact ⟨a, b, added, hadd, hsub.cons c⟩
    · rename_i hne
      by_cases hp : numberElement (c : Int) = baseEl ∧ c ∉ out
      · rw [if_pos hp]
        have hok : AltOk baseNum (out ++ [c]) := by
          refine ⟨List.Nodup.append h1.1 (List.nodup_singleton _) (by simpa using hp.2), ?_⟩
          intro x hx
          rcases List.mem_append.1 hx with hx | hx
          · exact h1.2 x hx
          · rw [List.mem_singleton.1 hx]; exact hne
        split
        · refine ⟨hok, by simp; omega, [c], rfl, ?_⟩
          exact (List.Sublist.refl [c]).trans (by simp)
        · rename_i hlen
          obtain ⟨a, b, added, hadd, hsub⟩ := ih (out ++ [c]) hok (by omega)
          refine ⟨a, b, c :: added, ?_, hsub.cons₂ c⟩
          rw [hadd]; simp
      · rw [if_neg hp]
        split
        · omega
        · obtain ⟨a, b, added, hadd, hsub⟩ := ih out h1 h2
          exact ⟨a, b, added, hadd, hsub.cons c⟩

theorem altBatches_spec (bytes : List Nat) (baseNum : Int) (baseEl : Element) (maxCount : Nat) :
    ∀ (fuel offset : Nat) (out : List Nat), AltOk baseNum out → out.length ≤ maxCount →
      AltOk baseNum (altBatches bytes baseNum baseEl maxCount fuel offset out) ∧
      (altBatches bytes baseNum baseEl maxCount fuel offset out).length ≤ maxCount ∧
      ∃ rest, altBatches bytes baseNum baseEl maxCount fuel offset out = out ++ rest := by
  intro fuel
  induction fuel with
  | zero => intro offset out h1 h2; exact ⟨h1, h2, [], by simp [altBatches]⟩
  | succ n ih =>
    intro offset out h1 h2
    simp only [altBatches]
    split
    · rename_i hlt
      obtain ⟨a, b, added, hadd, _⟩ :=
        altInner_spec baseNum baseEl maxCount (pickUniqueNumbers bytes 10 offset) out h1 hlt
      obtain ⟨a2, b2, rest, hrest⟩ := ih (offset + 7) _ a b
      refine ⟨a2, b2, added ++ rest, ?_⟩
      rw [hrest, hadd, List.append_assoc]
    · exact ⟨h1, h2, [], by simp⟩

theorem altFallback_spec (bytes : List Nat) (baseNum : Int) (maxCount : Nat) :
    ∀ (fuel offset : Nat) (out : List Nat), AltOk baseNum out → out.length ≤ maxCount →
      AltOk baseNum (altFallback bytes baseNum maxCount fuel offset out) ∧
      (altFallback bytes baseNum maxCount fuel offset out).length ≤ maxCount ∧
      ∃ rest, altFallback bytes baseNum maxCount fuel offset out = out ++ rest := by
  intro fuel
  induction fuel with
  | zero => intro offset out h1 h2; exact ⟨h1, h2, [], by simp [altFallback]⟩
  | succ n ih =>
    intro offset out h1 h2
    simp only [altFallback, firstPick_eq]
    split
    · rename_i hlt
      by_cases hp : (drawAt bytes offset : Int) ≠ baseNum ∧ drawAt bytes offset ∉ out
      · rw [if_pos hp]
        have hok : AltOk baseNum (out ++ [drawAt bytes offset]) := by
          refine ⟨List.Nodup.append h1.1 (List.nodup_singleton _) (by simpa using hp.2), ?_⟩
          intro x hx
          rcases List.mem_append.1 hx with hx | hx
          · exact h1.2 x hx
          · rw [List.mem_singleton.1 hx]; exact hp.1
        obtain ⟨a2, b2, rest, hrest⟩ := ih (offset + 1) _ hok (by simp; omega)
        refine ⟨a2, b2, drawAt bytes offset :: rest, ?_⟩
        rw [hrest]; simp
      · rw [if_neg hp]
        exact ih (offset + 1) out h1 h2
    · exact ⟨h1, h2, [], by simp⟩

theorem altOk_nil (baseNum : Int) : AltOk baseNum [] :=
  ⟨List.nodup_nil, by simp⟩

theorem altBatches_succ (bytes : List Nat) (baseNum : Int) (baseEl : Element) (maxCount : Nat) :
    ∀ (n offset : Nat) (out : List Nat),
      altBatches bytes baseNum baseEl maxCount (n + 1) offset out =
        if (altBatches bytes baseNum baseEl maxCount n offset out).length < maxCount then
          altInner baseNum baseEl maxCount (pickUniqueNumbers bytes 10 (offset + 7 * n))
            (altBatches bytes baseNum baseEl maxCount n offset out)
        else altBatches bytes baseNum baseEl maxCount n offset out := by
  intro n
  induction n with
  | zero => intro offset out; simp [altBatches]
  | succ n ih =>
    intro offset out
    rw [altBatches]
    by_cases hlt : out.length < maxCount
    · rw [if_pos hlt, ih]
      have e : offset + 7 + 7 * n = offset + 7 * (n + 1) := by omega
      conv_rhs => rw [altBatches, if_pos hlt]
      rw [e]
    · rw [if_neg hlt]
      conv_rhs => rw [altBatches, if_neg hlt, if_neg hlt]

theorem altBatches_add (bytes : List Nat) (baseNum : Int) (baseEl : Element) (maxCount : Nat) :
    ∀ (k n offset : Nat) (out : List Nat), AltOk baseNum out → out.length ≤ maxCount →
      ∃ rest, altBatches bytes baseNum baseEl maxCount (n + k) offset out =
        altBatches bytes baseNum baseEl maxCount n offset out ++ rest := by
  intro k
  induction k with
  | zero => intro n offset out _ _; exact ⟨[], by simp⟩
  | succ k ih =>
    intro n offset out h1 h2
    obtain ⟨rest, hrest⟩ := ih n offset out h1 h2
    obtain ⟨a, b, _⟩ := altBatches_spec bytes baseNum baseEl maxCount (n + k) offset out h1 h2
    rw [← Nat.add_assoc, altBatches_succ]
    split
    · rename_i hlt
      obtain ⟨_, _, added, hadd, _⟩ := altInner_spec baseNum baseEl maxCount
        (pickUniqueNumbers bytes 10 (offset + 7 * (n + k))) _ a hlt
      exact ⟨rest ++ added, by rw [hadd, hrest, List.append_assoc]⟩
    · exact ⟨rest, hrest⟩

theorem numberElement_of_nonneg (n : Int) (h : 0 ≤ n) :
    remainderTable (n % 5) = some (numberElement n) := by
  have ht : Int.tmod n 5 = n % 5 := Int.tmod_eq_emod h (by decide)
  have h5 : n % 5 = 0 ∨ n % 5 = 1 ∨ n % 5 = 2 ∨ n % 5 = 3 ∨ n % 5 = 4 := by omega
  simp only [numberElement, ht]
  rcases h5 with h5 | h5 | h5 | h5 | h5 <;> rw [h5] <;> rfl

theorem linePosOf_of_pos (n : Int) (h : 1 ≤ n) :
    linePosOf n = if n % 6 = 0 then 6 else n % 6 := by
  have ht : Int.tmod n 6 = n % 6 := Int.tmod_eq_emod (by omega) (by decide)
  simp only [linePosOf, ht]

theorem getD_take (l : List Nat) (n i : Nat) (h : i < n) :
    (l.take n).getD i 0 = l.getD i 0 := by
  simp [List.getD_eq_getElem?_getD, List.getElem?_take, h]

theorem lineAt_eq_mod (bytes : List Nat) (i : Nat) : lineAt bytes i = bytes.getD i 0 % 2 := by
  simp only [lineAt, Nat.and_one_is_mod]
  split <;> omega

theorem movingAt_eq (bytes : List Nat) (i : Nat) :
    movingAt bytes i = decide (bytes.getD i 0 / 2 % 2 = 1) := by
  simp only [movingAt, Nat.and_one_is_mod, Nat.shiftRight_eq_div_pow, Nat.pow_one]

theorem bonusLoop_defined (bytes set : List Nat) :
    ∀ (fuel offsetB : Nat) (b0 : Option Nat), (∃ v, b0 = some v ∧ 1 ≤ v ∧ v ≤ 45) →
      ∃ b, bonusLoop bytes set fuel offsetB b0 = some b ∧ 1 ≤ b ∧ b ≤ 45 := by
  intro fuel
  induction fuel with
  | zero => intro offsetB b0 h; exact h
  | succ n ih =>
    intro offsetB b0 h
    simp only [bonusLoop]
    split
    · exact ih _ _ ⟨drawAt bytes (offsetB + 1), firstPick_eq _ _, drawAt_range _ _⟩
    · exact h

theorem drawAt_congr (bytes : List Nat) (hlen : bytes.length = 32) (p q : Nat)
    (h : p % 32 = q % 32) : drawAt bytes p = drawAt bytes q := by
  have h1 : (p + 1) % 32 = (q + 1) % 32 := by omega
  simp only [drawAt, hlen, h, h1]

theorem pickLoop_congr (bytes : List Nat) (hlen : bytes.length = 32) (count : Nat) :
    ∀ (fuel p q : Nat) (out : List Nat), p % 32 = q % 32 →
      pickLoop bytes count fuel p out = pickLoop bytes count fuel q out := by
  intro fuel
  induction fuel with
  | zero => intro p q out _; rfl
  | succ n ih =>
    intro p q out h
    simp only [pickLoop, drawAt_congr bytes hlen p q h]
    split
    · exact ih _ _ _ (by omega)
    · rfl

theorem drawsFrom_subset_sixteen (bytes : List Nat) (hlen : bytes.length = 32)
    (fuel p : Nat) : (drawsFrom bytes fuel p).toFinset ⊆ (drawsFrom bytes 16 p).toFinset := by
  intro x hx
  simp only [drawsFrom, List.mem_toFinset, List.mem_map, List.mem_range] at hx ⊢
  obtain ⟨i, _, rfl⟩ := hx
  exact ⟨i % 16, Nat.mod_lt _ (by decide), drawAt_congr bytes hlen _ _ (by omega)⟩

theorem fnvLoop_reverse (r : List Nat) : fnvLoop r.reverse 0x811c9dc5 = fnv1aRev r := by
  induction r with
  | nil => rfl
  | cons c earlier ih =>
    simp only [fnvLoop, List.reverse_cons, List.foldl_append, List.foldl_cons, List.foldl_nil]
    simp only [fnvLoop] at ih
    rw [ih]
    rfl

theorem fnvLoop_eq_fnv1a (str : List Nat) : fnvLoop str 0x811c9dc5 = fnv1a str := by
  have h := fnvLoop_reverse str.reverse
  rw [List.reverse_reverse] at h
  exact h

theorem fnv1aRev_lt (r : List Nat) : fnv1aRev r < 2 ^ 32 := by
  cases r with
  | nil => decide
  | cons c earlier => exact Nat.mod_lt _ (by decide)

theorem fnv1a_lt (str : List Nat) : fnv1a str < 2 ^ 32 := fnv1aRev_lt _

theorem and_ff (x : Nat) : x &&& 0xff = x % 256 :=
  Nat.and_pow_two_sub_one_eq_mod x 8

theorem hRound_succ (h0 n : Nat) :
    hRound h0 (n + 1) = imul32 (hRound h0 n ^^^ (n + 0x9e3779b9)) 0x01000193 := by
  simp only [hRound, imul32]
  norm_num

theorem fallbackStep_eq (h0 : Nat) (acc tail : List Nat) (n : Nat) (hn : n < 32)
    (hacc : acc.length = n) :
    fallbackStep (hRound h0 n, acc ++ 0 :: tail) n =
      (hRound h0 (n + 1), (acc ++ [digestByte h0 n]) ++ tail) := by
  have hk : (n + 0x9e3779b9) % 4294967296 = n + 0x9e3779b9 := by omega
  have hset : (acc ++ 0 :: tail).set n (digestByte h0 n) = (acc ++ [digestByte h0 n]) ++ tail := by
    rw [List.set_append_right _ _ (by omega), hacc, Nat.sub_self, List.set_cons_zero,
      List.append_assoc]
    rfl
  have hbyte : (hRound h0 (n + 1) >>> ((n % 4) * 8)) &&& 0xff = digestByte h0 n := by
    rw [and_ff, Nat.shiftRight_eq_div_pow, Nat.mul_comm (n % 4) 8]
    rfl
  simp only [fallbackStep, hk, ← hRound_succ, hbyte, hset]

theorem fallback_fold (h0 : Nat) :
    ∀ n, n ≤ 32 →
      (List.range n).foldl fallbackStep (h0, List.replicate 32 0) =
        (hRound h0 n, (List.range n).map (digestByte h0) ++ List.replicate (32 - n) 0) := by
  intro n
  induction n with
  | zero => intro _; rfl
  | succ n ih =>
    intro hn
    rw [List.range_succ, List.foldl_append, ih (by omega), List.foldl_cons, List.foldl_nil]
    have hr : List.replicate (32 - n) 0 = 0 :: List.replicate (32 - (n + 1)) 0 := by
      rw [show 32 - n = (32 - (n + 1)) + 1 by omega, List.replicate_succ]
    rw [hr, fallbackStep_eq h0 _ _ n (by omega) (by simp), List.map_append]
    rfl

theorem sha256BytesFallback_eq (str : List Nat) :
    sha256BytesFallback str = (List.range 32).map (digestByte (fnv1a str)) := by
  simp only [sha256BytesFallback, fnvLoop_eq_fnv1a]
  rw [fallback_fold _ 32 (Nat.le_refl _)]
  simp

theorem xor_mod_congr (a b k m : Nat) (h : a % 2 ^ m = b % 2 ^ m) :
    (a ^^^ k) % 2 ^ m = (b ^^^ k) % 2 ^ m := by
  apply Nat.eq_of_testBit_eq
  intro i
  simp only [Nat.testBit_mod_two_pow, Nat.testBit_xor]
  by_cases hi : i < m
  · have ht := congrArg (fun z => Nat.testBit z i) h
    simp only [Nat.testBit_mod_two_pow, hi, decide_True, Bool.true_and] at ht
    rw [ht]
  · simp [hi]

theorem step_mod_iff (x y k m : Nat) (hm : m ≤ 32) :
    ((x ^^^ k) * 0x01000193 % 2 ^ 32) % 2 ^ m = ((y ^^^ k) * 0x01000193 % 2 ^ 32) % 2 ^ m ↔
      x % 2 ^ m = y % 2 ^ m := by
  have hd : 2 ^ m ∣ 2 ^ 32 := Nat.pow_dvd_pow 2 hm
  rw [Nat.mod_mod_of_dvd _ hd, Nat.mod_mod_of_dvd _ hd]
  constructor
  · intro h
    have hc : Nat.gcd (2 ^ m) 0x01000193 = 1 :=
      Nat.Coprime.pow_left m (by decide)
    have h2 : (x ^^^ k) % 2 ^ m = (y ^^^ k) % 2 ^ m :=
      Nat.ModEq.cancel_right_of_coprime hc h
    have h3 := xor_mod_congr _ _ k m h2
    rwa [Nat.xor_cancel_right, Nat.xor_cancel_right] at h3
  · intro h
    exact Nat.ModEq.mul_right _ (xor_mod_congr _ _ k m h)

theorem hRound_mod_iff (a b m : Nat) (hm : m ≤ 32) :
    ∀ n, hRound a n % 2 ^ m = hRound b n % 2 ^ m ↔ a % 2 ^ m = b % 2 ^ m := by
  intro n
  induction n with
  | zero => exact Iff.rfl
  | succ n ih =>
    simp only [hRound]
    rw [step_mod_iff _ _ _ m hm, ih]

theorem digest_injective (a b : Nat) (ha : a < 2 ^ 32) (hb : b < 2 ^ 32)
    (h : (List.range 32).map (digestByte a) = (List.range 32).map (digestByte b)) : a = b := by
  have hbyte : ∀ i, i < 32 → digestByte a i = digestByte b i := fun i hi =>
    List.map_inj_left.1 h i (List.mem_range.2 hi)
  have e0 : hRound a 1 % 256 = hRound b 1 % 256 := by
    have := hbyte 0 (by decide)
    simpa [digestByte] using this
  have e1 : hRound a 2 / 256 % 256 = hRound b 2 / 256 % 256 := hbyte 1 (by decide)
  have e2 : hRound a 3 / 65536 % 256 = hRound b 3 / 65536 % 256 := hbyte 2 (by decide)
  have e3 : hRound a 4 / 16777216 % 256 = hRound b 4 / 16777216 % 256 := hbyte 3 (by decide)
  have m8 : a % 2 ^ 8 = b % 2 ^ 8 := (hRound_mod_iff a b 8 (by decide) 1).1 e0
  have f1 : hRound a 2 % 2 ^ 8 = hRound b 2 % 2 ^ 8 := (hRound_mod_iff a b 8 (by decide) 2).2 m8
  have m16 : a % 2 ^ 16 = b % 2 ^ 16 :=
    (hRound_mod_iff a b 16 (by decide) 2).1 (by norm_num at f1 ⊢; omega)
  have f2 : hRound a 3 % 2 ^ 16 = hRound b 3 % 2 ^ 16 :=
    (hRound_mod_iff a b 16 (by decide) 3).2 m16
  have m24 : a % 2 ^ 24 = b % 2 ^ 24 :=
    (hRound_mod_iff a b 24 (by decide) 3).1 (by norm_num at f2 ⊢; omega)
  have f3 : hRound a 4 % 2 ^ 24 = hRound b 4 % 2 ^ 24 :=
    (hRound_mod_iff a b 24 (by decide) 4).2 m24
  have m32 : a % 2 ^ 32 = b % 2 ^ 32 :=
    (hRound_mod_iff a b 32 (by decide) 4).1 (by norm_num at f3 ⊢; omega)
  rwa [Nat.mod_eq_of_lt ha, Nat.mod_eq_of_lt hb] at m32

theorem relationOf_iff (el d : Element) :
    (relationOf el d = Relation.self ↔ el = d) ∧
      (relationOf el d = Relation.generative ↔ el = GENERATES d) ∧
      (relationOf el d = Relation.restraining ↔ el = OVERCOMES d) ∧
      (relationOf el d = Relation.neutral ↔
        el ≠ d ∧ el ≠ GENERATES d ∧ el ≠ OVERCOMES d) := by
  cases el <;> cases d <;> decide

/-! ## Claims -/

/-- C1 (counterexample): on the all-zero 32-byte digest, with count 2 and offset 0, every
draw is 1, the guard runs out, and `pickUniqueNumbers` returns the one-element list `[1]`:
a list shorter than `count`, returned without any failure. -/
theorem pickUniqueNumbers_short_on_digestZero :
    digestZero.length = 32 ∧ (∀ b ∈ digestZero, b < 256) ∧
      pickUniqueNumbers digestZero 2 0 = [1] ∧
      (pickUniqueNumbers digestZero 2 0).length < 2 := by
  have h : pickUniqueNumbers digestZero 2 0 = [1] := by
    rw [pickUniqueNumbers, pickLoop_4000, if_pos (by decide), if_neg (List.not_mem_nil _),
      List.nil_append, drawAt_digestZero, pickLoop_digestZero]
    rfl
  refine ⟨by simp [digestZero], ?_, h, by simp [h]⟩
  intro b hb
  rw [List.eq_of_mem_replicate hb]
  decide

/-- C1 (amended): `pickUniqueNumbers` is total and never fails; it returns at most `count`
numbers, namely `min count d` of them, where `d` is the number of distinct values among
the 4000 draws at the cursors `offset, offset+2, ...`. It returns exactly `count` numbers
when `d` is at least `count` and a shorter list otherwise. -/
theorem pickUniqueNumbers_length (bytes : List Nat) (count offset : Nat) :
    (pickUniqueNumbers bytes count offset).length ≤ count ∧
      (pickUniqueNumbers bytes count offset).length =
        min count (drawsFrom bytes 4000 offset).toFinset.card := by
  have h := pickLoop_length bytes count 4000 offset [] List.nodup_nil (Nat.zero_le _)
  have hp : (pickUniqueNumbers bytes count offset).length =
      (pickLoop bytes count 4000 offset []).length := (sortAsc_perm _).length_eq
  rw [List.nil_append] at h
  rw [hp, h]
  exact ⟨Nat.min_le_left _ _, rfl⟩

/-- C2: the numbers returned by `pickUniqueNumbers` are pairwise distinct and each lies in
[1,45], for every digest, count and start offset; in particular this holds for the five
groups of `generate`, drawn with count 5 at offset `groupIndex*7 + moveCount`. -/
theorem pickUniqueNumbers_distinct_in_range (bytes : List Nat) (count offset : Nat) :
    ((pickUniqueNumbers bytes count offset).Nodup ∧
      ∀ x ∈ pickUniqueNumbers bytes count offset, 1 ≤ x ∧ x ≤ 45) ∧
    (allSets bytes = (List.range 5).map (fun groupIndex =>
        pickUniqueNumbers bytes 5 (groupIndex * 7 + moveCount (deriveLines bytes).moving)) ∧
      ∀ g ∈ allSets bytes, g.Nodup ∧ ∀ x ∈ g, 1 ≤ x ∧ x ≤ 45) := by
  refine ⟨⟨pickUniqueNumbers_nodup _ _ _, pickUniqueNumbers_range _ _ _⟩, rfl, ?_⟩
  intro g hg
  simp only [allSets, List.mem_map] at hg
  obtain ⟨i, _, rfl⟩ := hg
  exact ⟨pickUniqueNumbers_nodup _ _ _, pickUniqueNumbers_range _ _ _⟩

/-- C3 (the code at the failing input): on the digest `digestNines` every draw is one of
1, 10, 19, 28, 37, all five groups are `[1, 10, 19, 28, 37]`, and after the 200 re-draws
the bonus of every group is still one of that group's own numbers. -/
theorem bonus_collides_on_digestNines :
    digestNines.length = 32 ∧ (∀ b ∈ digestNines, b < 256) ∧
      allSets digestNines = [[1, 10, 19, 28, 37], [1, 10, 19, 28, 37], [1, 10, 19, 28, 37],
        [1, 10, 19, 28, 37], [1, 10, 19, 28, 37]] ∧
      (List.range 5).map (bonus digestNines) = [some 10, some 10, some 1, some 37, some 37] := by
  decide!

/-- C4: for every byte sequence and every index `i` in 0..5, `deriveLines` yields a line
value `l`, a changing flag `m` and a changed value equal to `1 - l` when `m` is true and
to `l` when `m` is false. -/
theorem deriveLines_changed (bytes : List Nat) (i : Nat) (hi : i < 6) :
    ∃ l m, (deriveLines bytes).lines[i]? = some l ∧ (deriveLines bytes).moving[i]? = some m ∧
      (deriveLines bytes).changed[i]? = some (if m = true then 1 - l else l) := by
  refine ⟨lineAt bytes i, movingAt bytes i, ?_, ?_, ?_⟩
  · interval_cases i <;> simp [deriveLines, range_six]
  · interval_cases i <;> simp [deriveLines, range_six]
  · interval_cases i <;> simp [deriveLines, range_six, List.enum, List.enumFrom] <;>
      exact flip_eq _ _ (lineAt_le_one bytes _)

/-- C4 (witness): the invariant at index 4 of `digestMixed`. -/
theorem deriveLines_changed_witness :
    ∃ l m, (deriveLines digestMixed).lines[4]? = some l ∧
      (deriveLines digestMixed).moving[4]? = some m ∧
      (deriveLines digestMixed).changed[4]? = some (if m = true then 1 - l else l) :=
  deriveLines_changed digestMixed 4 (by decide)

/-- C5: `dominantElement` returns the shared attribute when `upper` and `lower` have the same
attribute; otherwise it returns the attribute of `upper` when the number of changing
flags among positions 3..5 is at least the number among positions 0..2, and the
attribute of `lower` when it is strictly smaller. -/
theorem dominantElement_rule (upper lower : Trigram) (moving : List Bool)
    (h6 : moving.length = 6) :
    (upper.element = lower.element →
        dominantElement upper lower moving = upper.element ∧
        dominantElement upper lower moving = lower.element) ∧
      (upper.element ≠ lower.element →
        (changingIn moving 0 3 ≤ changingIn moving 3 6 →
          dominantElement upper lower moving = upper.element) ∧
        (changingIn moving 3 6 < changingIn moving 0 3 →
          dominantElement upper lower moving = lower.element)) := by
  obtain ⟨hu, hl⟩ := flagBit_sums moving h6
  simp only [dominantElement, hu, hl]
  refine ⟨fun h => ?_, fun h => ⟨fun hle => ?_, fun hlt => ?_⟩⟩
  · simp [h]
  · simp [h, hle]
  · simp [h, Nat.not_le.2 hlt]

/-- C5 (witness): the trigrams of keys 111 (upper) and 101 (lower) with the changing flags
`[true, false, false, false, true, false]`: one changing flag in each half, so the upper
attribute wins the tie. -/
theorem dominantElement_rule_witness :
    (Element.metal = Element.fire →
        dominantElement ⟨"qian", "건(乾)", "☰", "하늘", Element.metal⟩
          ⟨"li", "리(離)", "☲", "불", Element.fire⟩
          [true, false, false, false, true, false] = Element.metal ∧
        dominantElement ⟨"qian", "건(乾)", "☰", "하늘", Element.metal⟩
          ⟨"li", "리(離)", "☲", "불", Element.fire⟩
          [true, false, false, false, true, false] = Element.fire) ∧
      (Element.metal ≠ Element.fire →
        (changingIn [true, false, false, false, true, false] 0 3 ≤
            changingIn [true, false, false, false, true, false] 3 6 →
          dominantElement ⟨"qian", "건(乾)", "☰", "하늘", Element.metal⟩
            ⟨"li", "리(離)", "☲", "불", Element.fire⟩
            [true, false, false, false, true, false] = Element.metal) ∧
        (changingIn [true, false, false, false, true, false] 3 6 <
            changingIn [true, false, false, false, true, false] 0 3 →
          dominantElement ⟨"qian", "건(乾)", "☰", "하늘", Element.metal⟩
            ⟨"li", "리(離)", "☲", "불", Element.fire⟩
            [true, false, false, false, true, false] = Element.fire)) :=
  dominantElement_rule ⟨"qian", "건(乾)", "☰", "하늘", Element.metal⟩
    ⟨"li", "리(離)", "☲", "불", Element.fire⟩ [true, false, false, false, true, false] rfl

/-- C6: the list returned by `buildAlternatives(bytes, n, m)` never contains `n`, has at
most `m` elements and contains no value twice. -/
theorem buildAlternatives_props (bytes : List Nat) (baseNum : Int) (maxCount : Nat) :
    (∀ x ∈ buildAlternatives bytes baseNum maxCount, (x : Int) ≠ baseNum) ∧
      (buildAlternatives bytes baseNum maxCount).length ≤ maxCount ∧
      (buildAlternatives bytes baseNum maxCount).Nodup := by
  obtain ⟨a, b, _⟩ := altBatches_spec bytes baseNum (numberElement baseNum) maxCount 200 13 []
    (altOk_nil baseNum) (Nat.zero_le _)
  obtain ⟨a2, b2, _⟩ := altFallback_spec bytes baseNum maxCount 100 999 _ a b
  exact ⟨a2.2, b2, a2.1⟩

/-- C7: the list returned by `pickUniqueNumbers` is in strictly ascending order: every
element is less than each later one, in particular less than the one right after it. -/
theorem pickUniqueNumbers_ascending (bytes : List Nat) (count offset : Nat) :
    (pickUniqueNumbers bytes count offset).Sorted (· < ·) ∧
      (pickUniqueNumbers bytes count offset).Chain' (· < ·) := by
  have h : (pickUniqueNumbers bytes count offset).Sorted (· < ·) :=
    (sortAsc_sorted _).lt_of_le (pickUniqueNumbers_nodup bytes count offset)
  exact ⟨h, List.Pairwise.chain' h⟩

/-- C8 (counterexample): on `digestMixed` with base number 4 and `maxCount` 2, the first
batch draws 19 at cursor 19 and 9 only later at cursor 27 (the draws from cursor 13 are
26, 18, 45, 19, 28, 31, 24, 9, ...), yet the output is `[9, 19]`: the later draw comes
first, because the batch is sorted before it is filtered. -/
theorem buildAlternatives_not_draw_order :
    digestMixed.length = 32 ∧ (∀ b ∈ digestMixed, b < 256) ∧
      drawsFrom digestMixed 11 13 = [26, 18, 45, 19, 28, 31, 24, 9, 45, 34, 25] ∧
      pickUniqueNumbers digestMixed 10 13 = [9, 18, 19, 24, 25, 26, 28, 31, 34, 45] ∧
      batchState digestMixed 4 2 1 = [9, 19] ∧
      buildAlternatives digestMixed 4 2 = [9, 19] := by
  decide!

/-- C8 (amended): for every batch index `t < 200`, the numbers that batch `t` (drawn at
offset `13 + 7 t`) adds to the output of `buildAlternatives` form a contiguous segment of
the output, placed after the numbers of the earlier batches, and inside that segment the
numbers are in ascending numeric order. -/
theorem buildAlternatives_batch_ascending (bytes : List Nat) (baseNum : Int)
    (maxCount t : Nat) (ht : t < 200) :
    batchState bytes baseNum maxCount (t + 1) =
        (if (batchState bytes baseNum maxCount t).length < maxCount then
          altInner baseNum (numberElement baseNum) maxCount
            (pickUniqueNumbers bytes 10 (13 + 7 * t)) (batchState bytes baseNum maxCount t)
        else batchState bytes baseNum maxCount t) ∧
      ∃ added rest,
        batchState bytes baseNum maxCount (t + 1) =
          batchState bytes baseNum maxCount t ++ added ∧
        added.Sorted (· < ·) ∧
        buildAlternatives bytes baseNum maxCount =
          batchState bytes baseNum maxCount t ++ added ++ rest := by
  have hstep := altBatches_succ bytes baseNum (numberElement baseNum) maxCount t 13 []
  obtain ⟨a, b, _⟩ := altBatches_spec bytes baseNum (numberElement baseNum) maxCount t 13 []
    (altOk_nil baseNum) (Nat.zero_le _)
  obtain ⟨a1, b1, _⟩ := altBatches_spec bytes baseNum (numberElement baseNum) maxCount 200 13 []
    (altOk_nil baseNum) (Nat.zero_le _)
  obtain ⟨r1, hr1⟩ := altBatches_add bytes baseNum (numberElement baseNum) maxCount
    (200 - (t + 1)) (t + 1) 13 [] (altOk_nil baseNum) (Nat.zero_le _)
  rw [show t + 1 + (200 - (t + 1)) = 200 by omega] at hr1
  obtain ⟨_, _, r2, hr2⟩ := altFallback_spec bytes baseNum maxCount 100 999 _ a1 b1
  refine ⟨hstep, ?_⟩
  have hadd : ∃ added, batchState bytes baseNum maxCount (t + 1) =
      batchState bytes baseNum maxCount t ++ added ∧ added.Sorted (· < ·) := by
    simp only [batchState]
    rw [hstep]
    split
    · rename_i hlt
      obtain ⟨_, _, added, hadd, hsub⟩ := altInner_spec baseNum (numberElement baseNum) maxCount
        (pickUniqueNumbers bytes 10 (13 + 7 * t)) _ a hlt
      exact ⟨added, hadd, List.Pairwise.sublist hsub
        ((sortAsc_sorted _).lt_of_le (pickUniqueNumbers_nodup bytes 10 _))⟩
    · exact ⟨[], by simp, List.sorted_nil⟩
  obtain ⟨added, h1, h2⟩ := hadd
  refine ⟨added, r1 ++ r2, h1, h2, ?_⟩
  simp only [buildAlternatives]
  rw [hr2, hr1]
  simp only [batchState] at h1
  rw [h1, List.append_assoc, List.append_assoc, List.append_assoc]
  rfl

/-- C8 (witness): the first batch on `digestMixed` with base number 4 and `maxCount` 2. -/
theorem buildAlternatives_batch_ascending_witness :
    batchState digestMixed 4 2 (0 + 1) =
        (if (batchState digestMixed 4 2 0).length < 2 then
          altInner 4 (numberElement 4) 2
            (pickUniqueNumbers digestMixed 10 (13 + 7 * 0)) (batchState digestMixed 4 2 0)
        else batchState digestMixed 4 2 0) ∧
      ∃ added rest,
        batchState digestMixed 4 2 (0 + 1) = batchState digestMixed 4 2 0 ++ added ∧
        added.Sorted (· < ·) ∧
        buildAlternatives digestMixed 4 2 = batchState digestMixed 4 2 0 ++ added ++ rest :=
  buildAlternatives_batch_ascending digestMixed 4 2 0 (by decide)

/-- C9: starting from any attribute `x`, five applications of `GENERATES` return to `x`,
the five attributes met on the way are pairwise different and are all the attributes,
and `OVERCOMES x` is two `GENERATES` steps ahead of `x`. -/
theorem GENERATES_cycle (x : Element) :
    GENERATES (GENERATES (GENERATES (GENERATES (GENERATES x)))) = x ∧
      (∀ y : Element, y ∈ [x, GENERATES x, GENERATES (GENERATES x),
        GENERATES (GENERATES (GENERATES x)),
        GENERATES (GENERATES (GENERATES (GENERATES x)))]) ∧
      [x, GENERATES x, GENERATES (GENERATES x), GENERATES (GENERATES (GENERATES x)),
        GENERATES (GENERATES (GENERATES (GENERATES x)))].Nodup ∧
      OVERCOMES x = GENERATES (GENERATES x) := by
  refine ⟨?_, ?_, ?_, ?_⟩
  · cases x <;> rfl
  · intro y; cases x <;> cases y <;> decide
  · cases x <;> decide
  · cases x <;> rfl

/-- C10: for bits `b`, `m`, `t` (bottom, middle, top), `trigramFromLines` returns a defined
category, the `TRIGRAMS` entry whose key is the three bits written bottom to top, and two
bit triples with the same category are the same triple. -/
theorem trigramFromLines_total (b m t b2 m2 t2 : Nat) (hb : b ≤ 1) (hm : m ≤ 1) (ht : t ≤ 1)
    (hb2 : b2 ≤ 1) (hm2 : m2 ≤ 1) (ht2 : t2 ≤ 1) :
    (∃ c, trigramFromLines [b, m, t] = some c ∧
        TRIGRAMS (toString b ++ toString m ++ toString t) = some c) ∧
      (trigramFromLines [b, m, t] = trigramFromLines [b2, m2, t2] →
        b = b2 ∧ m = m2 ∧ t = t2) := by
  interval_cases b <;> interval_cases m <;> interval_cases t <;>
    interval_cases b2 <;> interval_cases m2 <;> interval_cases t2 <;> decide

/-- C10 (witness): the triples (1, 0, 1) and (0, 1, 1). -/
theorem trigramFromLines_total_witness :
    (∃ c, trigramFromLines [1, 0, 1] = some c ∧
        TRIGRAMS (toString 1 ++ toString 0 ++ toString 1) = some c) ∧
      (trigramFromLines [1, 0, 1] = trigramFromLines [0, 1, 1] →
        1 = 0 ∧ 0 = 1 ∧ 1 = 1) :=
  trigramFromLines_total 1 0 1 0 1 1 (by decide) (by decide) (by decide) (by decide)
    (by decide) (by decide)

/-- C11: for every integer `n` from 1 to 45, `numberElement n` is the attribute that the
fixed table gives for `n mod 5`: remainder 1 is wood, 2 is fire, 3 is earth, 4 is metal
and 0 is water. -/
theorem numberElement_table (n : Int) (h1 : 1 ≤ n) (h45 : n ≤ 45) :
    remainderTable (n % 5) = some (numberElement n) ∧
      (n % 5 = 1 → numberElement n = Element.wood) ∧
      (n % 5 = 2 → numberElement n = Element.fire) ∧
      (n % 5 = 3 → numberElement n = Element.earth) ∧
      (n % 5 = 4 → numberElement n = Element.metal) ∧
      (n % 5 = 0 → numberElement n = Element.water) := by
  have h := numberElement_of_nonneg n (by omega)
  refine ⟨h, ?_, ?_, ?_, ?_, ?_⟩ <;> intro hr <;> rw [hr] at h <;>
    exact (Option.some.inj h).symm

/-- C11 (witness): the number 23, of remainder 3. -/
theorem numberElement_table_witness :
    remainderTable (23 % 5) = some (numberElement 23) ∧
      ((23 : Int) % 5 = 1 → numberElement 23 = Element.wood) ∧
      ((23 : Int) % 5 = 2 → numberElement 23 = Element.fire) ∧
      ((23 : Int) % 5 = 3 → numberElement 23 = Element.earth) ∧
      ((23 : Int) % 5 = 4 → numberElement 23 = Element.metal) ∧
      ((23 : Int) % 5 = 0 → numberElement 23 = Element.water) :=
  numberElement_table 23 (by decide) (by decide)

/-- C12: `buildReasons` returns one record per input number, in order, and the record of a
number `n` has the attribute of `n` and exactly one relation: self exactly when
`numberElement n` is the dominant attribute `d`, generative exactly when it is
`GENERATES d`, restraining exactly when it is `OVERCOMES d`, and neutral exactly in every
other case; `d`, `GENERATES d` and `OVERCOMES d` are pairwise different, so the three
non-neutral conditions exclude one another. -/
theorem buildReasons_relation (mainNums : List Int) (ctx : ReasonCtx) :
    (buildReasons mainNums ctx).length = mainNums.length ∧
      (∀ (i : Nat) (n : Int), mainNums[i]? = some n →
        ∃ r, (buildReasons mainNums ctx)[i]? = some r ∧ r = buildReason ctx n ∧ r.n = n ∧
          r.el = numberElement n ∧
          (r.relation = Relation.self ↔ numberElement n = ctx.domEl) ∧
          (r.relation = Relation.generative ↔ numberElement n = GENERATES ctx.domEl) ∧
          (r.relation = Relation.restraining ↔ numberElement n = OVERCOMES ctx.domEl) ∧
          (r.relation = Relation.neutral ↔
            numberElement n ≠ ctx.domEl ∧ numberElement n ≠ GENERATES ctx.domEl ∧
              numberElement n ≠ OVERCOMES ctx.domEl) ∧
          r.reasonShort = r.relation) ∧
      (ctx.domEl ≠ GENERATES ctx.domEl ∧ ctx.domEl ≠ OVERCOMES ctx.domEl ∧
        GENERATES ctx.domEl ≠ OVERCOMES ctx.domEl) := by
  refine ⟨by simp [buildReasons], ?_, by cases ctx.domEl <;> decide⟩
  intro i n hin
  obtain ⟨h1, h2, h3, h4⟩ := relationOf_iff (numberElement n) ctx.domEl
  refine ⟨buildReason ctx n, ?_, rfl, rfl, rfl, h1, h2, h3, h4, rfl⟩
  simp [buildReasons, List.getElem?_map, hin]

/-- C12 (witness): the numbers 23 and 40 in `ctxExample`. -/
theorem buildReasons_relation_witness :
    (buildReasons [23, 40] ctxExample).length = [(23 : Int), 40].length ∧
      (∀ (i : Nat) (n : Int), [(23 : Int), 40][i]? = some n →
        ∃ r, (buildReasons [23, 40] ctxExample)[i]? = some r ∧ r = buildReason ctxExample n ∧
          r.n = n ∧ r.el = numberElement n ∧
          (r.relation = Relation.self ↔ numberElement n = ctxExample.domEl) ∧
          (r.relation = Relation.generative ↔ numberElement n = GENERATES ctxExample.domEl) ∧
          (r.relation = Relation.restraining ↔ numberElement n = OVERCOMES ctxExample.domEl) ∧
          (r.relation = Relation.neutral ↔
            numberElement n ≠ ctxExample.domEl ∧ numberElement n ≠ GENERATES ctxExample.domEl ∧
              numberElement n ≠ OVERCOMES ctxExample.domEl) ∧
          r.reasonShort = r.relation) ∧
      (ctxExample.domEl ≠ GENERATES ctxExample.domEl ∧
        ctxExample.domEl ≠ OVERCOMES ctxExample.domEl ∧
        GENERATES ctxExample.domEl ≠ OVERCOMES ctxExample.domEl) :=
  buildReasons_relation [23, 40] ctxExample

/-- C13: for every integer `n >= 1` and every figure of six flags and six lines, the line
position of the record lies in 1..6, is congruent to `n` modulo 6 (6 when `n mod 6 = 0`),
the lookups `moving[linePos-1]` and `lines[linePos-1]` are inside the figure, and the
category of the record is the lower one when `linePos <= 3` and the upper one otherwise. -/
theorem buildReasons_linePos (ctx : ReasonCtx) (n : Int) (hn : 1 ≤ n)
    (hm : ctx.moving.length = 6) (hl : ctx.lines.length = 6) :
    1 ≤ (buildReason ctx n).linePos ∧ (buildReason ctx n).linePos ≤ 6 ∧
      (buildReason ctx n).linePos % 6 = n % 6 ∧
      (n % 6 = 0 → (buildReason ctx n).linePos = 6) ∧
      (∃ m, jsIndex ctx.moving ((buildReason ctx n).linePos - 1) = some m) ∧
      (∃ l, jsIndex ctx.lines ((buildReason ctx n).linePos - 1) = some l) ∧
      ((buildReason ctx n).linePos ≤ 3 → (buildReason ctx n).trigram = ctx.lower) ∧
      (3 < (buildReason ctx n).linePos → (buildReason ctx n).trigram = ctx.upper) := by
  have hp := linePosOf_of_pos n hn
  have h1 : 1 ≤ linePosOf n ∧ linePosOf n ≤ 6 := by rw [hp]; split <;> omega
  have hidx : ∀ {α : Type} (arr : List α), arr.length = 6 →
      ∃ v, jsIndex arr (linePosOf n - 1) = some v := by
    intro α arr ha
    have hlt : (linePosOf n - 1).toNat < arr.length := by omega
    refine ⟨arr[(linePosOf n - 1).toNat], ?_⟩
    simp only [jsIndex]
    rw [if_neg (by omega), List.getElem?_eq_getElem hlt]
  simp only [buildReason]
  refine ⟨h1.1, h1.2, ?_, ?_, hidx _ hm, hidx _ hl, ?_, ?_⟩
  · rw [hp]; split <;> omega
  · intro h0; rw [hp, if_pos h0]
  · intro h3; rw [if_pos h3]
  · intro h3; rw [if_neg (by omega)]

/-- C13 (witness): the number 40 in `ctxExample`. -/
theorem buildReasons_linePos_witness :
    1 ≤ (buildReason ctxExample 40).linePos ∧ (buildReason ctxExample 40).linePos ≤ 6 ∧
      (buildReason ctxExample 40).linePos % 6 = (40 : Int) % 6 ∧
      ((40 : Int) % 6 = 0 → (buildReason ctxExample 40).linePos = 6) ∧
      (∃ m, jsIndex ctxExample.moving ((buildReason ctxExample 40).linePos - 1) = some m) ∧
      (∃ l, jsIndex ctxExample.lines ((buildReason ctxExample 40).linePos - 1) = some l) ∧
      ((buildReason ctxExample 40).linePos ≤ 3 →
        (buildReason ctxExample 40).trigram = ctxExample.lower) ∧
      (3 < (buildReason ctxExample 40).linePos →
        (buildReason ctxExample 40).trigram = ctxExample.upper) :=
  buildReasons_linePos ctxExample 40 (by decide) rfl rfl

/-- C14: for every byte sequence of length at least 6, `deriveLines` returns six line values
and six changing flags; for `i` in 0..5 the line value is bit 0 of `bytes[i]` and the flag
is true exactly when bit 1 of `bytes[i]` is set; a byte sequence with the same first six
bytes yields the same figure. -/
theorem deriveLines_bits (bytes : List Nat) (h6 : 6 ≤ bytes.length) :
    (deriveLines bytes).lines.length = 6 ∧ (deriveLines bytes).moving.length = 6 ∧
      (∀ i, i < 6 → ∃ b, bytes[i]? = some b ∧
        (deriveLines bytes).lines[i]? = some (b % 2) ∧
        (deriveLines bytes).moving[i]? = some (decide (b / 2 % 2 = 1))) ∧
      (∀ bytes2 : List Nat, 6 ≤ bytes2.length → bytes2.take 6 = bytes.take 6 →
        deriveLines bytes2 = deriveLines bytes) := by
  refine ⟨by simp [deriveLines], by simp [deriveLines], ?_, ?_⟩
  · intro i hi
    have hlt : i < bytes.length := by omega
    have hg : bytes.getD i 0 = bytes[i] := by
      simp [List.getD_eq_getElem?_getD, List.getElem?_eq_getElem hlt]
    refine ⟨bytes[i], List.getElem?_eq_getElem hlt, ?_, ?_⟩
    · rw [← hg, ← lineAt_eq_mod]
      interval_cases i <;> simp [deriveLines, range_six]
    · rw [← hg, ← movingAt_eq]
      interval_cases i <;> simp [deriveLines, range_six]
  · intro bytes2 _ ht
    have hline : ∀ i, i ∈ List.range 6 → lineAt bytes2 i = lineAt bytes i := by
      intro i hi
      have hi6 : i < 6 := List.mem_range.1 hi
      simp only [lineAt]
      rw [← getD_take bytes2 6 i hi6, ← getD_take bytes 6 i hi6, ht]
    have hmov : ∀ i, i ∈ List.range 6 → movingAt bytes2 i = movingAt bytes i := by
      intro i hi
      have hi6 : i < 6 := List.mem_range.1 hi
      simp only [movingAt]
      rw [← getD_take bytes2 6 i hi6, ← getD_take bytes 6 i hi6, ht]
    simp only [deriveLines, List.map_congr_left hline, List.map_congr_left hmov]

/-- C14 (witness): the digest `digestMixed`. -/
theorem deriveLines_bits_witness :
    (deriveLines digestMixed).lines.length = 6 ∧ (deriveLines digestMixed).moving.length = 6 ∧
      (∀ i, i < 6 → ∃ b, digestMixed[i]? = some b ∧
        (deriveLines digestMixed).lines[i]? = some (b % 2) ∧
        (deriveLines digestMixed).moving[i]? = some (decide (b / 2 % 2 = 1))) ∧
      (∀ bytes2 : List Nat, 6 ≤ bytes2.length → bytes2.take 6 = digestMixed.take 6 →
        deriveLines bytes2 = deriveLines digestMixed) :=
  deriveLines_bits digestMixed (by decide)

/-- C15 (counterexample): for the seed `2024-01-01` the counter values 16439 and 308804
are different, yet the strings `2024-01-01|16439` and `2024-01-01|308804` have the same
fallback digest. -/
theorem fallback_digest_collision :
    (16439 : Nat) ≠ 308804 ∧
      seedWithNonce seed2024 16439 =
        [50, 48, 50, 52, 45, 48, 49, 45, 48, 49, 124, 49, 54, 52, 51, 57] ∧
      seedWithNonce seed2024 308804 =
        [50, 48, 50, 52, 45, 48, 49, 45, 48, 49, 124, 51, 48, 56, 56, 48, 52] ∧
      sha256BytesFallback (seedWithNonce seed2024 16439) =
        sha256BytesFallback (seedWithNonce seed2024 308804) := by
  decide

/-- C15 (amended): for every seed string and every two counter values, the fallback digests
of `S|C` and `S|C'` are equal exactly when the 32-bit FNV-1a hashes of the two strings are
equal: the digests differ if and only if the hashes differ. -/
theorem fallback_digest_eq_iff (seed : List Nat) (c c2 : Nat) :
    sha256BytesFallback (seedWithNonce seed c) = sha256BytesFallback (seedWithNonce seed c2) ↔
      fnv1a (seedWithNonce seed c) = fnv1a (seedWithNonce seed c2) := by
  rw [sha256BytesFallback_eq, sha256BytesFallback_eq]
  constructor
  · exact digest_injective _ _ (fnv1a_lt _) (fnv1a_lt _)
  · intro h; rw [h]

/-- C16: a draw of one number, `pickUniqueNumbers(bytes, 1, offset)`, is never empty, and the
bonus computed in `generate` for a group is always defined and lies in [1,45]. -/
theorem bonus_defined_in_range (bytes : List Nat) (setIdx : Nat) :
    (∀ offset, ∃ v, pickUniqueNumbers bytes 1 offset = [v] ∧ firstPick bytes offset = some v) ∧
      ∃ b, bonus bytes setIdx = some b ∧ 1 ≤ b ∧ b ≤ 45 := by
  refine ⟨fun offset => ⟨_, pickUniqueNumbers_one _ _, firstPick_eq _ _⟩, ?_⟩
  simp only [bonus]
  exact bonusLoop_defined _ _ _ _ _ ⟨_, firstPick_eq _ _, drawAt_range _ _⟩

/-- C17 (the code at the failing input): on `digestTie` the upper trigram is 111 (metal), the
lower trigram is 101 (fire), each half has exactly one changing line, and
`dominantElement` returns metal, the attribute of the upper trigram. -/
theorem dominantElement_tie_on_digestTie :
    digestTie.length = 32 ∧ (∀ b ∈ digestTie, b < 256) ∧
      (deriveLines digestTie).lines = [1, 0, 1, 1, 1, 1] ∧
      (deriveLines digestTie).moving = [true, false, false, false, true, false] ∧
      trigramFromLines [1, 1, 1] = some ⟨"qian", "건(乾)", "☰", "하늘", Element.metal⟩ ∧
      trigramFromLines [1, 0, 1] = some ⟨"li", "리(離)", "☲", "불", Element.fire⟩ ∧
      changingIn (deriveLines digestTie).moving 3 6 = 1 ∧
      changingIn (deriveLines digestTie).moving 0 3 = 1 ∧
      dominantElement ⟨"qian", "건(乾)", "☰", "하늘", Element.metal⟩
        ⟨"li", "리(離)", "☲", "불", Element.fire⟩ (deriveLines digestTie).moving
        = Element.metal := by
  decide

/-- C18: for every input string the fallback path of `sha256Bytes` returns exactly 32 values,
each in 0..255, and byte `i` is `(h(i) >> 8*(i mod 4)) mod 256`, where `h(-1)` is the 32-bit
FNV-1a hash of the string and `h(i) = ((h(i-1) xor (i + 0x9e3779b9)) * 0x01000193) mod 2^32`;
the last conjunct is the digest of the empty string. -/
theorem sha256BytesFallback_spec (str : List Nat) :
    (sha256BytesFallback str).length = 32 ∧ (∀ b ∈ sha256BytesFallback str, b < 256) ∧
      sha256BytesFallback str = (List.range 32).map (digestByte (fnv1a str)) ∧
      (∀ i, i < 32 → (sha256BytesFallback str)[i]? =
        some ((hRound (fnv1a str) (i + 1) / 2 ^ (8 * (i % 4))) % 256)) ∧
      sha256BytesFallback [] =
        [52, 193, 156, 142, 208, 146, 4, 245, 148, 68, 43, 96, 112, 6, 248, 230, 116, 51, 8,
         225, 48, 101, 42, 145, 84, 149, 14, 99, 16, 89, 105, 108] := by
  have h := sha256BytesFallback_eq str
  refine ⟨by simp [h], ?_, h, ?_, by decide⟩
  · intro b hb
    rw [h] at hb
    obtain ⟨i, _, rfl⟩ := List.mem_map.1 hb
    exact Nat.mod_lt _ (by decide)
  · intro i hi
    rw [h, List.getElem?_map, List.getElem?_range hi]
    rfl

/-- C19: on a 32-byte digest two start offsets congruent modulo 32 give the same result:
`pickUniqueNumbers` depends on the offset only through `offset mod 32`. -/
theorem pickUniqueNumbers_offset_mod (bytes : List Nat) (hlen : bytes.length = 32)
    (count a b : Nat) (hab : a % 32 = b % 32) :
    pickUniqueNumbers bytes count a = pickUniqueNumbers bytes count b ∧
      pickUniqueNumbers bytes count a = pickUniqueNumbers bytes count (a % 32) := by
  simp only [pickUniqueNumbers]
  rw [pickLoop_congr bytes hlen count 4000 a b [] hab,
    pickLoop_congr bytes hlen count 4000 b (a % 32) [] (by omega)]
  exact ⟨rfl, rfl⟩

/-- C19 (witness): the offsets 3 and 67 on `digestMixed`. -/
theorem pickUniqueNumbers_offset_mod_witness :
    pickUniqueNumbers digestMixed 5 3 = pickUniqueNumbers digestMixed 5 67 ∧
      pickUniqueNumbers digestMixed 5 3 = pickUniqueNumbers digestMixed 5 (3 % 32) :=
  pickUniqueNumbers_offset_mod digestMixed (by decide) 5 3 67 (by decide)

/-- C20: on a 32-byte digest `pickUniqueNumbers` returns at most `min count 16` numbers:
every value it can draw is among the 16 draws at the cursors `offset, offset+2, ...,
offset+30`. -/
theorem pickUniqueNumbers_length_le_sixteen (bytes : List Nat) (hlen : bytes.length = 32)
    (count offset : Nat) :
    (pickUniqueNumbers bytes count offset).length ≤ min count 16 ∧
      (drawsFrom bytes 4000 offset).toFinset ⊆ (drawsFrom bytes 16 offset).toFinset ∧
      (drawsFrom bytes 4000 offset).toFinset.card ≤ 16 := by
  have hsub := drawsFrom_subset_sixteen bytes hlen 4000 offset
  have hcard : (drawsFrom bytes 4000 offset).toFinset.card ≤ 16 := by
    refine (Finset.card_le_card hsub).trans ((List.toFinset_card_le _).trans ?_)
    simp [drawsFrom]
  have h := pickLoop_length bytes count 4000 offset [] List.nodup_nil (Nat.zero_le _)
  have hp : (pickUniqueNumbers bytes count offset).length =
      (pickLoop bytes count 4000 offset []).length := (sortAsc_perm _).length_eq
  rw [List.nil_append] at h
  refine ⟨?_, hsub, hcard⟩
  rw [hp, h]
  omega

/-- C20 (witness): the digest `digestMixed` with count 20 and offset 3. -/
theorem pickUniqueNumbers_length_le_sixteen_witness :
    (pickUniqueNumbers digestMixed 20 3).length ≤ min 20 16 ∧
      (drawsFrom digestMixed 4000 3).toFinset ⊆ (drawsFrom digestMixed 16 3).toFinset ∧
      (drawsFrom digestMixed 4000 3).toFinset.card ≤ 16 :=
  pickUniqueNumbers_length_le_sixteen digestMixed (by decide) 20 3

/-- C21: for every integer `n >= 0`, the attribute of `n + 1` is the attribute generated by
the attribute of `n`: `numberElement (n + 1) = GENERATES (numberElement n)`. -/
theorem numberElement_succ (n : Int) (hn : 0 ≤ n) :
    numberElement (n + 1) = GENERATES (numberElement n) := by
  have ht : Int.tmod n 5 = n % 5 := Int.tmod_eq_emod hn (by decide)
  have ht1 : Int.tmod (n + 1) 5 = (n + 1) % 5 := Int.tmod_eq_emod (by omega) (by decide)
  have h5 : (n % 5 = 0 ∧ (n + 1) % 5 = 1) ∨ (n % 5 = 1 ∧ (n + 1) % 5 = 2) ∨
      (n % 5 = 2 ∧ (n + 1) % 5 = 3) ∨ (n % 5 = 3 ∧ (n + 1) % 5 = 4) ∨
      (n % 5 = 4 ∧ (n + 1) % 5 = 0) := by omega
  simp only [numberElement, ht, ht1]
  rcases h5 with ⟨h, h1⟩ | ⟨h, h1⟩ | ⟨h, h1⟩ | ⟨h, h1⟩ | ⟨h, h1⟩ <;> rw [h, h1] <;> rfl

/-- C21 (witness): the numbers 44 and 45, metal and then water. -/
theorem numberElement_succ_witness :
    numberElement (44 + 1) = GENERATES (numberElement 44) :=
  numberElement_succ 44 (by decide)

end Lotto
